import Mathlib

/-!
Shallow embedding of the microarchitecture catalog and host-detection
engine of lib/spack/llnl/util/cpu.py, together with proofs about the
properties stated in the specification.

Modelling conventions:
- Python class MicroArchitecture becomes an inductive value type whose
  parents field nests further MicroArchitecture values.
- Python features are a set of strings; we carry a list and compare
  extensionally (a set has no order or multiplicity).
- Python compilers is a dictionary of JSON data; we carry an association
  list of uninterpreted string payloads and compare structurally (catalog
  dictionaries are canonical: unique keys, fixed insertion order).
- Python __eq__ compares name, vendor, features, ancestors, compilers and
  generation; ancestors dedups additions via __eq__, so the two are
  mutually recursive.  We realise the mutual recursion by a fuel
  construction and prove that the result is fuel independent above an
  explicit threshold.
- Raising an exception is modelled by Option or by returning none.
-/

inductive MicroArchitecture : Type where
  | mk : String → List MicroArchitecture → String → List String →
      List (String × String) → Nat → MicroArchitecture

/-- Field accessor: name of the micro-architecture. -/
def MicroArchitecture.name : MicroArchitecture → String
  | .mk n _ _ _ _ _ => n

/-- Field accessor: direct parents, in declaration order. -/
def MicroArchitecture.parents : MicroArchitecture → List MicroArchitecture
  | .mk _ ps _ _ _ _ => ps

/-- Field accessor: vendor string. -/
def MicroArchitecture.vendor : MicroArchitecture → String
  | .mk _ _ v _ _ _ => v

/-- Field accessor: feature flags (a set of strings in the source). -/
def MicroArchitecture.features : MicroArchitecture → List String
  | .mk _ _ _ f _ _ => f

/-- Field accessor: compiler support table. -/
def MicroArchitecture.compilers : MicroArchitecture → List (String × String)
  | .mk _ _ _ _ c _ => c

/-- Field accessor: generation ordinal. -/
def MicroArchitecture.generation : MicroArchitecture → Nat
  | .mk _ _ _ _ _ g => g

mutual

/-- Structural size of a micro-architecture value (1 plus sizes of the
parents).  Used as the fuel budget for the mutual recursion below. -/
def sizeM : MicroArchitecture → Nat
  | .mk _ ps _ _ _ _ => 1 + sizeL ps

/-- Sum of structural sizes over a list of micro-architectures. -/
def sizeL : List MicroArchitecture → Nat
  | [] => 0
  | p :: rest => sizeM p + sizeL rest

end

theorem sizeM_pos (a : MicroArchitecture) : 0 < sizeM a := by
  cases a with
  | mk n ps v f c g => simp [sizeM]

theorem sizeM_le_sizeL_of_mem {p : MicroArchitecture}
    {ps : List MicroArchitecture} (h : p ∈ ps) : sizeM p ≤ sizeL ps := by
  induction ps with
  | nil => cases h
  | cons q rest ih =>
    rcases List.mem_cons.mp h with rfl | hmem
    · simp [sizeL]
    · have := ih hmem
      simp [sizeL]
      omega

theorem sizeM_lt_of_mem_parents {p a : MicroArchitecture}
    (h : p ∈ a.parents) : sizeM p < sizeM a := by
  cases a with
  | mk n ps v f c g =>
    have hle : sizeM p ≤ sizeL ps := sizeM_le_sizeL_of_mem h
    simp [MicroArchitecture.parents] at h
    simp [sizeM]
    omega

/-- Python set equality on string sets represented as lists: the same
elements on both sides. -/
def strSetEq (l1 l2 : List String) : Bool :=
  l1.all (fun s => l2.contains s) && l2.all (fun s => l1.contains s)

/-- Python list equality, elementwise under a given equality test. -/
def listEqWith (eq : MicroArchitecture → MicroArchitecture → Bool) :
    List MicroArchitecture → List MicroArchitecture → Bool
  | [], [] => true
  | x :: xs, y :: ys => eq x y && listEqWith eq xs ys
  | _, _ => false

/-- Python membership test (the in operator) on a list, under a given
equality test. -/
def pyMem (eq : MicroArchitecture → MicroArchitecture → Bool)
    (x : MicroArchitecture) (l : List MicroArchitecture) : Bool :=
  l.any (fun y => eq x y)

/-- Models value.extend(a for a in xs if a not in value): each element of
xs is appended unless already present; the membership test sees the
list as extended so far, mirroring the Python generator. -/
def extendDedup (eq : MicroArchitecture → MicroArchitecture → Bool)
    (v xs : List MicroArchitecture) : List MicroArchitecture :=
  xs.foldl (fun acc x => if pyMem eq x acc then acc else acc ++ [x]) v

/-- Fuel-indexed pair of (__eq__, ancestors).  At fuel k+1, equality
compares name, vendor, features, the two ancestor lists elementwise,
compilers and generation exactly as MicroArchitecture.__eq__ does, and the
ancestor computation is value = parents[:] followed by the dedup extension
with each parent's own ancestors, exactly as the ancestors property does.
Fuel 0 returns degenerate values never observed above the stabilisation
threshold proved below. -/
def coreF : Nat →
    ((MicroArchitecture → MicroArchitecture → Bool) ×
      (MicroArchitecture → List MicroArchitecture))
  | 0 => (fun _ _ => false, fun _ => [])
  | k + 1 =>
    ( fun a b =>
        decide (a.name = b.name) && decide (a.vendor = b.vendor) &&
        strSetEq a.features b.features &&
        listEqWith (coreF k).1 ((coreF k).2 a) ((coreF k).2 b) &&
        decide (a.compilers = b.compilers) &&
        decide (a.generation = b.generation),
      fun a =>
        a.parents.foldl
          (fun v p => extendDedup (coreF k).1 v ((coreF k).2 p)) a.parents )

/-- Fuel-indexed __eq__. -/
def eqF (k : Nat) : MicroArchitecture → MicroArchitecture → Bool :=
  (coreF k).1

/-- Fuel-indexed ancestors. -/
def ancF (k : Nat) : MicroArchitecture → List MicroArchitecture :=
  (coreF k).2

theorem eqF_succ (k : Nat) (a b : MicroArchitecture) :
    eqF (k + 1) a b =
      (decide (a.name = b.name) && decide (a.vendor = b.vendor) &&
       strSetEq a.features b.features &&
       listEqWith (eqF k) (ancF k a) (ancF k b) &&
       decide (a.compilers = b.compilers) &&
       decide (a.generation = b.generation)) := rfl

theorem ancF_succ (k : Nat) (a : MicroArchitecture) :
    ancF (k + 1) a =
      a.parents.foldl (fun v p => extendDedup (eqF k) v (ancF k p))
        a.parents := rfl

theorem extendDedup_nil (eq : MicroArchitecture → MicroArchitecture → Bool)
    (v : List MicroArchitecture) : extendDedup eq v [] = v := rfl

theorem extendDedup_cons (eq : MicroArchitecture → MicroArchitecture → Bool)
    (v : List MicroArchitecture) (x : MicroArchitecture)
    (xs : List MicroArchitecture) :
    extendDedup eq v (x :: xs) =
      extendDedup eq (if pyMem eq x v then v else v ++ [x]) xs := rfl

theorem mem_extendDedup {eq : MicroArchitecture → MicroArchitecture → Bool}
    {v xs : List MicroArchitecture} {x : MicroArchitecture}
    (h : x ∈ extendDedup eq v xs) : x ∈ v ∨ x ∈ xs := by
  induction xs generalizing v with
  | nil => exact Or.inl (by simpa [extendDedup_nil] using h)
  | cons y ys ih =>
    rw [extendDedup_cons] at h
    rcases ih h with hv | hys
    · by_cases hm : pyMem eq y v = true
      · simp [hm] at hv
        exact Or.inl hv
      · simp [hm] at hv
        rcases hv with hv | rfl
        · exact Or.inl hv
        · exact Or.inr (List.mem_cons_self _ _)
    · exact Or.inr (List.mem_cons_of_mem _ hys)

theorem mem_foldl_extendDedup
    {eq : MicroArchitecture → MicroArchitecture → Bool}
    {f : MicroArchitecture → List MicroArchitecture}
    {ps v : List MicroArchitecture} {x : MicroArchitecture}
    (h : x ∈ ps.foldl (fun v p => extendDedup eq v (f p)) v) :
    x ∈ v ∨ ∃ p ∈ ps, x ∈ f p := by
  induction ps generalizing v with
  | nil => exact Or.inl (by simpa using h)
  | cons p ps ih =>
    simp only [List.foldl_cons] at h
    rcases ih h with hstep | ⟨q, hq, hxq⟩
    · rcases mem_extendDedup hstep with hv | hfp
      · exact Or.inl hv
      · exact Or.inr ⟨p, List.mem_cons_self _ _, hfp⟩
    · exact Or.inr ⟨q, List.mem_cons_of_mem _ hq, hxq⟩

theorem ancF_size {k : Nat} {a x : MicroArchitecture}
    (h : x ∈ ancF k a) : sizeM x < sizeM a := by
  induction k generalizing a with
  | zero => simp [ancF, coreF] at h
  | succ k ih =>
    rw [ancF_succ] at h
    rcases mem_foldl_extendDedup h with hv | ⟨p, hp, hxp⟩
    · exact sizeM_lt_of_mem_parents hv
    · exact lt_trans (ih hxp) (sizeM_lt_of_mem_parents hp)

theorem pyMem_congr {eq1 eq2 : MicroArchitecture → MicroArchitecture → Bool}
    {x : MicroArchitecture} {l : List MicroArchitecture}
    (h : ∀ y ∈ l, eq1 x y = eq2 x y) : pyMem eq1 x l = pyMem eq2 x l := by
  induction l with
  | nil => rfl
  | cons y ys ih =>
    simp only [pyMem, List.any_cons]
    rw [h y (List.mem_cons_self _ _)]
    have := ih (fun z hz => h z (List.mem_cons_of_mem _ hz))
    simp only [pyMem] at this
    rw [this]

theorem extendDedup_congr {eq1 eq2 : MicroArchitecture → MicroArchitecture → Bool}
    {s : Nat} {v xs : List MicroArchitecture}
    (heq : ∀ x y : MicroArchitecture,
      sizeM x < s → sizeM y < s → eq1 x y = eq2 x y)
    (hv : ∀ x ∈ v, sizeM x < s) (hxs : ∀ x ∈ xs, sizeM x < s) :
    extendDedup eq1 v xs = extendDedup eq2 v xs := by
  induction xs generalizing v with
  | nil => rfl
  | cons y ys ih =>
    rw [extendDedup_cons, extendDedup_cons]
    have hy : sizeM y < s := hxs y (List.mem_cons_self _ _)
    have hmem : pyMem eq1 y v = pyMem eq2 y v :=
      pyMem_congr (fun z hz => heq y z hy (hv z hz))
    rw [hmem]
    have hv' : ∀ x ∈ (if pyMem eq2 y v then v else v ++ [y]), sizeM x < s := by
      intro x hx
      by_cases hc : pyMem eq2 y v = true
      · simp [hc] at hx
        exact hv x hx
      · simp [hc] at hx
        rcases hx with hx | rfl
        · exact hv x hx
        · exact hy
    exact ih hv' (fun x hx => hxs x (List.mem_cons_of_mem _ hx))

theorem foldl_extendDedup_congr (s : Nat)
    {eq1 eq2 : MicroArchitecture → MicroArchitecture → Bool}
    {f1 f2 : MicroArchitecture → List MicroArchitecture}
    {ps v : List MicroArchitecture}
    (heq : ∀ x y : MicroArchitecture,
      sizeM x < s → sizeM y < s → eq1 x y = eq2 x y)
    (hanc : ∀ p ∈ ps, f1 p = f2 p)
    (hfb : ∀ p ∈ ps, ∀ x ∈ f1 p, sizeM x < s)
    (hv : ∀ x ∈ v, sizeM x < s) :
    ps.foldl (fun v p => extendDedup eq1 v (f1 p)) v =
      ps.foldl (fun v p => extendDedup eq2 v (f2 p)) v := by
  induction ps generalizing v with
  | nil => rfl
  | cons p ps ih =>
    simp only [List.foldl_cons]
    have hstep : extendDedup eq1 v (f1 p) = extendDedup eq2 v (f2 p) := by
      rw [hanc p (List.mem_cons_self _ _)] at *
      exact extendDedup_congr heq hv
        (by
          intro x hx
          have := hfb p (List.mem_cons_self _ _)
          rw [hanc p (List.mem_cons_self _ _)] at this
          exact this x hx)
    rw [hstep]
    have hv' : ∀ x ∈ extendDedup eq2 v (f2 p), sizeM x < s := by
      intro x hx
      rcases mem_extendDedup hx with hxv | hxf
      · exact hv x hxv
      · have := hfb p (List.mem_cons_self _ _)
        rw [hanc p (List.mem_cons_self _ _)] at this
        exact this x hxf
    exact ih (fun q hq => hanc q (List.mem_cons_of_mem _ hq))
      (fun q hq => hfb q (List.mem_cons_of_mem _ hq)) hv'

theorem listEqWith_congr {eq1 eq2 : MicroArchitecture → MicroArchitecture → Bool}
    {l1 l2 : List MicroArchitecture}
    (h : ∀ x ∈ l1, ∀ y ∈ l2, eq1 x y = eq2 x y) :
    listEqWith eq1 l1 l2 = listEqWith eq2 l1 l2 := by
  induction l1 generalizing l2 with
  | nil => cases l2 <;> rfl
  | cons x xs ih =>
    cases l2 with
    | nil => rfl
    | cons y ys =>
      simp only [listEqWith]
      rw [h x (List.mem_cons_self _ _) y (List.mem_cons_self _ _)]
      rw [ih (fun x' hx' y' hy' =>
        h x' (List.mem_cons_of_mem _ hx') y' (List.mem_cons_of_mem _ hy'))]

theorem coreF_stabilization : ∀ n : Nat,
    (∀ a : MicroArchitecture, sizeM a ≤ n → ∀ k, 2 * sizeM a + 1 ≤ k →
      ancF k a = ancF (2 * sizeM a + 1) a) ∧
    (∀ a b : MicroArchitecture, max (sizeM a) (sizeM b) ≤ n →
      ∀ k, 2 * max (sizeM a) (sizeM b) + 2 ≤ k →
      eqF k a b = eqF (2 * max (sizeM a) (sizeM b) + 2) a b) := by
  intro n
  induction n using Nat.strong_induction_on with
  | _ n ih =>
    have hA : ∀ a : MicroArchitecture, sizeM a ≤ n →
        ∀ k, 2 * sizeM a + 1 ≤ k → ancF k a = ancF (2 * sizeM a + 1) a := by
      intro a ha k hk
      obtain ⟨k', rfl⟩ : ∃ k', k = k' + 1 := ⟨k - 1, by omega⟩
      have hk' : 2 * sizeM a ≤ k' := by omega
      rw [ancF_succ]
      rw [show 2 * sizeM a + 1 = (2 * sizeM a) + 1 from rfl, ancF_succ]
      apply foldl_extendDedup_congr (sizeM a)
      · intro x y hx hy
        have hmax : max (sizeM x) (sizeM y) < sizeM a := by omega
        have hmlt : max (sizeM x) (sizeM y) < n := lt_of_lt_of_le hmax ha
        have hE := (ih _ hmlt).2 x y le_rfl
        rw [hE k' (by omega), hE (2 * sizeM a) (by omega)]
      · intro p hp
        have hps : sizeM p < sizeM a := sizeM_lt_of_mem_parents hp
        have hplt : sizeM p < n := lt_of_lt_of_le hps ha
        have hAp := (ih _ hplt).1 p le_rfl
        rw [hAp k' (by omega), hAp (2 * sizeM a) (by omega)]
      · intro p hp x hx
        exact lt_trans (ancF_size hx) (sizeM_lt_of_mem_parents hp)
      · intro x hx
        exact sizeM_lt_of_mem_parents hx
    refine ⟨hA, ?_⟩
    intro a b hab k hk
    obtain ⟨k', rfl⟩ : ∃ k', k = k' + 1 := ⟨k - 1, by omega⟩
    have hk' : 2 * max (sizeM a) (sizeM b) + 1 ≤ k' := by omega
    rw [eqF_succ]
    rw [show 2 * max (sizeM a) (sizeM b) + 2 =
      (2 * max (sizeM a) (sizeM b) + 1) + 1 from rfl, eqF_succ]
    have ha : sizeM a ≤ n := le_trans (le_max_left _ _) hab
    have hb : sizeM b ≤ n := le_trans (le_max_right _ _) hab
    have hanca : ancF k' a = ancF (2 * max (sizeM a) (sizeM b) + 1) a := by
      have := hA a ha
      rw [this k' (by omega), this (2 * max (sizeM a) (sizeM b) + 1) (by omega)]
    have hancb : ancF k' b = ancF (2 * max (sizeM a) (sizeM b) + 1) b := by
      have := hA b hb
      rw [this k' (by omega), this (2 * max (sizeM a) (sizeM b) + 1) (by omega)]
    rw [hanca, hancb]
    have hlist :
        listEqWith (eqF k') (ancF (2 * max (sizeM a) (sizeM b) + 1) a)
            (ancF (2 * max (sizeM a) (sizeM b) + 1) b) =
          listEqWith (eqF (2 * max (sizeM a) (sizeM b) + 1))
            (ancF (2 * max (sizeM a) (sizeM b) + 1) a)
            (ancF (2 * max (sizeM a) (sizeM b) + 1) b) := by
      apply listEqWith_congr
      intro x hx y hy
      have hxa : sizeM x < sizeM a := ancF_size hx
      have hyb : sizeM y < sizeM b := ancF_size hy
      have hmax : max (sizeM x) (sizeM y) < max (sizeM a) (sizeM b) := by omega
      have hmlt : max (sizeM x) (sizeM y) < n := lt_of_lt_of_le hmax hab
      have hE := (ih _ hmlt).2 x y le_rfl
      rw [hE k' (by omega), hE (2 * max (sizeM a) (sizeM b) + 1) (by omega)]
    rw [hlist]

/-- The ancestors property of MicroArchitecture: parents first, then each
parent's own ancestors not already present, dedup by __eq__. -/
def ancestors (a : MicroArchitecture) : List MicroArchitecture :=
  ancF (2 * sizeM a + 1) a

/-- MicroArchitecture.__eq__: structural equality on name, vendor,
features (as sets), computed ancestors, compilers and generation. -/
def pyEq (a b : MicroArchitecture) : Bool :=
  eqF (2 * max (sizeM a) (sizeM b) + 2) a b

theorem ancF_stab {a : MicroArchitecture} {k : Nat}
    (h : 2 * sizeM a + 1 ≤ k) : ancF k a = ancestors a :=
  (coreF_stabilization (sizeM a)).1 a le_rfl k h

theorem eqF_stab {a b : MicroArchitecture} {k : Nat}
    (h : 2 * max (sizeM a) (sizeM b) + 2 ≤ k) : eqF k a b = pyEq a b :=
  (coreF_stabilization (max (sizeM a) (sizeM b))).2 a b le_rfl k h

theorem ancestors_size {x a : MicroArchitecture}
    (h : x ∈ ancestors a) : sizeM x < sizeM a := ancF_size h

/-- Unfolding equation for ancestors, in terms of the final (fuel free)
functions: value = parents[:] extended with each parent's ancestors that
are not already present, membership tested by __eq__. -/
theorem ancestors_eq (a : MicroArchitecture) :
    ancestors a =
      a.parents.foldl (fun v p => extendDedup pyEq v (ancestors p))
        a.parents := by
  show ancF ((2 * sizeM a) + 1) a = _
  rw [ancF_succ]
  apply foldl_extendDedup_congr (sizeM a)
  · intro x y hx hy
    exact eqF_stab (by omega)
  · intro p hp
    have hps : sizeM p < sizeM a := sizeM_lt_of_mem_parents hp
    exact ancF_stab (by omega)
  · intro p hp x hx
    exact lt_trans (ancF_size hx) (sizeM_lt_of_mem_parents hp)
  · intro x hx
    exact sizeM_lt_of_mem_parents hx

/-- Unfolding equation for __eq__, in terms of the final (fuel free)
functions. -/
theorem pyEq_unfold (a b : MicroArchitecture) :
    pyEq a b =
      (decide (a.name = b.name) && decide (a.vendor = b.vendor) &&
       strSetEq a.features b.features &&
       listEqWith pyEq (ancestors a) (ancestors b) &&
       decide (a.compilers = b.compilers) &&
       decide (a.generation = b.generation)) := by
  show eqF ((2 * max (sizeM a) (sizeM b) + 1) + 1) a b = _
  rw [eqF_succ]
  have hanca : ancF (2 * max (sizeM a) (sizeM b) + 1) a = ancestors a :=
    ancF_stab (by
      have : sizeM a ≤ max (sizeM a) (sizeM b) := le_max_left _ _
      omega)
  have hancb : ancF (2 * max (sizeM a) (sizeM b) + 1) b = ancestors b :=
    ancF_stab (by
      have : sizeM b ≤ max (sizeM a) (sizeM b) := le_max_right _ _
      omega)
  rw [hanca, hancb]
  have hlist : listEqWith (eqF (2 * max (sizeM a) (sizeM b) + 1))
      (ancestors a) (ancestors b) =
      listEqWith pyEq (ancestors a) (ancestors b) := by
    apply listEqWith_congr
    intro x hx y hy
    have hxa : sizeM x < sizeM a := ancestors_size hx
    have hyb : sizeM y < sizeM b := ancestors_size hy
    apply eqF_stab
    have h1 : sizeM a ≤ max (sizeM a) (sizeM b) := le_max_left _ _
    have h2 : sizeM b ≤ max (sizeM a) (sizeM b) := le_max_right _ _
    omega
  rw [hlist]

theorem pyMem_iff {eq : MicroArchitecture → MicroArchitecture → Bool}
    {z : MicroArchitecture} {l : List MicroArchitecture} :
    pyMem eq z l = true ↔ ∃ y ∈ l, eq z y = true := by
  simp [pyMem, List.any_eq_true]

theorem strContains_iff {l : List String} {s : String} :
    l.contains s = true ↔ s ∈ l := by
  simp [List.contains_iff_exists_mem_beq]

theorem strSetEq_iff {l1 l2 : List String} :
    strSetEq l1 l2 = true ↔
      (∀ s ∈ l1, s ∈ l2) ∧ (∀ s ∈ l2, s ∈ l1) := by
  simp [strSetEq, List.all_eq_true, strContains_iff]

theorem listEqWith_refl {eq : MicroArchitecture → MicroArchitecture → Bool}
    {l : List MicroArchitecture} (h : ∀ x ∈ l, eq x x = true) :
    listEqWith eq l l = true := by
  induction l with
  | nil => rfl
  | cons x xs ih =>
    simp only [listEqWith, Bool.and_eq_true]
    exact ⟨h x (List.mem_cons_self _ _),
      ih (fun y hy => h y (List.mem_cons_of_mem _ hy))⟩

theorem listEqWith_symm_of {eq : MicroArchitecture → MicroArchitecture → Bool}
    {l1 l2 : List MicroArchitecture}
    (h : ∀ x ∈ l1, ∀ y ∈ l2, eq x y = eq y x) :
    listEqWith eq l1 l2 = listEqWith eq l2 l1 := by
  induction l1 generalizing l2 with
  | nil => cases l2 <;> rfl
  | cons x xs ih =>
    cases l2 with
    | nil => rfl
    | cons y ys =>
      simp only [listEqWith]
      rw [h x (List.mem_cons_self _ _) y (List.mem_cons_self _ _)]
      rw [ih (fun x' hx' y' hy' =>
        h x' (List.mem_cons_of_mem _ hx') y' (List.mem_cons_of_mem _ hy'))]

theorem listEqWith_trans_of {eq : MicroArchitecture → MicroArchitecture → Bool}
    {l1 l2 l3 : List MicroArchitecture}
    (h : ∀ x ∈ l1, ∀ y ∈ l2, ∀ z ∈ l3,
      eq x y = true → eq y z = true → eq x z = true)
    (h12 : listEqWith eq l1 l2 = true) (h23 : listEqWith eq l2 l3 = true) :
    listEqWith eq l1 l3 = true := by
  induction l1 generalizing l2 l3 with
  | nil =>
    cases l2 with
    | nil => cases l3 with
      | nil => rfl
      | cons z zs => simp [listEqWith] at h23
    | cons y ys => simp [listEqWith] at h12
  | cons x xs ih =>
    cases l2 with
    | nil => simp [listEqWith] at h12
    | cons y ys =>
      cases l3 with
      | nil => simp [listEqWith] at h23
      | cons z zs =>
        simp only [listEqWith, Bool.and_eq_true] at h12 h23 ⊢
        refine ⟨h x (List.mem_cons_self _ _) y (List.mem_cons_self _ _)
          z (List.mem_cons_self _ _) h12.1 h23.1, ?_⟩
        exact ih (fun x' hx' y' hy' z' hz' =>
            h x' (List.mem_cons_of_mem _ hx') y' (List.mem_cons_of_mem _ hy')
              z' (List.mem_cons_of_mem _ hz'))
          h12.2 h23.2

theorem pyEq_refl_aux : ∀ n : Nat, ∀ a : MicroArchitecture,
    sizeM a ≤ n → pyEq a a = true := by
  intro n
  induction n using Nat.strong_induction_on with
  | _ n ih =>
    intro a ha
    rw [pyEq_unfold]
    simp only [Bool.and_eq_true, decide_eq_true_eq, true_and, and_true,
      eq_self_iff_true]
    constructor
    · exact strSetEq_iff.mpr ⟨fun s hs => hs, fun s hs => hs⟩
    · apply listEqWith_refl
      intro x hx
      have hlt : sizeM x < sizeM a := ancestors_size hx
      exact ih (sizeM x) (lt_of_lt_of_le hlt ha) x le_rfl

theorem pyEq_refl (a : MicroArchitecture) : pyEq a a = true :=
  pyEq_refl_aux (sizeM a) a le_rfl

theorem pyEq_symm_aux : ∀ n : Nat, ∀ a b : MicroArchitecture,
    sizeM a + sizeM b ≤ n → pyEq a b = pyEq b a := by
  intro n
  induction n using Nat.strong_induction_on with
  | _ n ih =>
    intro a b hab
    rw [pyEq_unfold a b, pyEq_unfold b a]
    rw [show decide (a.name = b.name) = decide (b.name = a.name) by
      simp [eq_comm]]
    rw [show decide (a.vendor = b.vendor) = decide (b.vendor = a.vendor) by
      simp [eq_comm]]
    rw [show strSetEq a.features b.features = strSetEq b.features a.features
      from Bool.and_comm _ _]
    rw [show decide (a.compilers = b.compilers) =
      decide (b.compilers = a.compilers) by simp [eq_comm]]
    rw [show decide (a.generation = b.generation) =
      decide (b.generation = a.generation) by simp [eq_comm]]
    rw [listEqWith_symm_of (fun x hx y hy => by
      have hx' : sizeM x < sizeM a := ancestors_size hx
      have hy' : sizeM y < sizeM b := ancestors_size hy
      exact ih (sizeM x + sizeM y) (by omega) x y le_rfl)]

theorem pyEq_symm (a b : MicroArchitecture) : pyEq a b = pyEq b a :=
  pyEq_symm_aux (sizeM a + sizeM b) a b le_rfl

theorem pyEq_trans_aux : ∀ n : Nat, ∀ a b c : MicroArchitecture,
    sizeM a + sizeM b + sizeM c ≤ n →
    pyEq a b = true → pyEq b c = true → pyEq a c = true := by
  intro n
  induction n using Nat.strong_induction_on with
  | _ n ih =>
    intro a b c habc hab hbc
    rw [pyEq_unfold] at hab hbc ⊢
    simp only [Bool.and_eq_true, decide_eq_true_eq] at hab hbc ⊢
    obtain ⟨⟨⟨⟨⟨hn1, hv1⟩, hf1⟩, hl1⟩, hc1⟩, hg1⟩ := hab
    obtain ⟨⟨⟨⟨⟨hn2, hv2⟩, hf2⟩, hl2⟩, hc2⟩, hg2⟩ := hbc
    refine ⟨⟨⟨⟨⟨hn1.trans hn2, hv1.trans hv2⟩, ?_⟩, ?_⟩, hc1.trans hc2⟩,
      hg1.trans hg2⟩
    · rw [strSetEq_iff] at hf1 hf2 ⊢
      exact ⟨fun s hs => hf2.1 s (hf1.1 s hs), fun s hs => hf1.2 s (hf2.2 s hs)⟩
    · apply listEqWith_trans_of ?_ hl1 hl2
      intro x hx y hy z hz hxy hyz
      have hx' : sizeM x < sizeM a := ancestors_size hx
      have hy' : sizeM y < sizeM b := ancestors_size hy
      have hz' : sizeM z < sizeM c := ancestors_size hz
      exact ih (sizeM x + sizeM y + sizeM z) (by omega) x y z le_rfl hxy hyz

theorem pyEq_trans {a b c : MicroArchitecture}
    (hab : pyEq a b = true) (hbc : pyEq b c = true) : pyEq a c = true :=
  pyEq_trans_aux (sizeM a + sizeM b + sizeM c) a b c le_rfl hab hbc

theorem pyEq_ancestors_component {a b : MicroArchitecture}
    (h : pyEq a b = true) :
    listEqWith pyEq (ancestors a) (ancestors b) = true := by
  rw [pyEq_unfold] at h
  simp only [Bool.and_eq_true] at h
  exact h.1.1.2

theorem pyMem_of_listEqWith {l1 l2 : List MicroArchitecture}
    {z : MicroArchitecture} (h : listEqWith pyEq l1 l2 = true) :
    pyMem pyEq z l1 = pyMem pyEq z l2 := by
  induction l1 generalizing l2 with
  | nil =>
    cases l2 with
    | nil => rfl
    | cons y ys => simp [listEqWith] at h
  | cons x xs ih =>
    cases l2 with
    | nil => simp [listEqWith] at h
    | cons y ys =>
      simp only [listEqWith, Bool.and_eq_true] at h
      simp only [pyMem, List.any_cons]
      have hhead : pyEq z x = pyEq z y := by
        cases hzx : pyEq z x with
        | true =>
          exact (pyEq_trans hzx h.1).symm
        | false =>
          cases hzy : pyEq z y with
          | true =>
            have hyx : pyEq y x = true := by rw [pyEq_symm]; exact h.1
            have := pyEq_trans hzy hyx
            rw [hzx] at this
            exact this
          | false => rfl
      rw [hhead]
      have := ih h.2
      simp only [pyMem] at this
      rw [this]

theorem pyMem_extendDedup (z : MicroArchitecture)
    (v xs : List MicroArchitecture) :
    pyMem pyEq z (extendDedup pyEq v xs) =
      (pyMem pyEq z v || pyMem pyEq z xs) := by
  induction xs generalizing v with
  | nil => simp [extendDedup_nil, pyMem]
  | cons x xs ih =>
    rw [extendDedup_cons]
    by_cases hm : pyMem pyEq x v = true
    · rw [if_pos hm, ih]
      simp only [pyMem, List.any_cons]
      cases hzx : pyEq z x with
      | true =>
        obtain ⟨y, hy, hxy⟩ := pyMem_iff.mp hm
        have hzv : pyMem pyEq z v = true := pyMem_iff.mpr ⟨y, hy, pyEq_trans hzx hxy⟩
        simp only [pyMem] at hzv
        simp [hzv]
      | false => simp
    · rw [if_neg hm, ih]
      simp only [pyMem, List.any_append, List.any_cons, List.any_nil]
      cases pyEq z x <;> cases v.any (fun y => pyEq z y) <;>
        cases xs.any (fun y => pyEq z y) <;> rfl

theorem pyMem_foldl_anc (z : MicroArchitecture)
    (ps v : List MicroArchitecture) :
    pyMem pyEq z (ps.foldl (fun v p => extendDedup pyEq v (ancestors p)) v) =
      (pyMem pyEq z v || ps.any (fun p => pyMem pyEq z (ancestors p))) := by
  induction ps generalizing v with
  | nil => simp
  | cons p ps ih =>
    simp only [List.foldl_cons, List.any_cons]
    rw [ih, pyMem_extendDedup]
    cases pyMem pyEq z v <;> cases pyMem pyEq z (ancestors p) <;> simp

/-- Membership (by __eq__) in the ancestor closure is membership in the
parents or in some parent's ancestor closure. -/
theorem pyMem_ancestors_iff (z a : MicroArchitecture) :
    pyMem pyEq z (ancestors a) =
      (pyMem pyEq z a.parents ||
        a.parents.any (fun p => pyMem pyEq z (ancestors p))) := by
  rw [ancestors_eq]
  exact pyMem_foldl_anc z a.parents a.parents

/-- Plain list membership in the ancestor closure comes from the parents
or from some parent's ancestor closure. -/
theorem mem_ancestors_cases {z a : MicroArchitecture}
    (h : z ∈ ancestors a) :
    z ∈ a.parents ∨ ∃ p ∈ a.parents, z ∈ ancestors p := by
  rw [ancestors_eq] at h
  exact mem_foldl_extendDedup h

theorem pyMem_ancestors_closure_aux : ∀ n : Nat, ∀ a : MicroArchitecture,
    sizeM a ≤ n → ∀ y ∈ ancestors a, ∀ z : MicroArchitecture,
    pyMem pyEq z (ancestors y) = true → pyMem pyEq z (ancestors a) = true := by
  intro n
  induction n using Nat.strong_induction_on with
  | _ n ih =>
    intro a ha y hy z hz
    rw [pyMem_ancestors_iff]
    rcases mem_ancestors_cases hy with hyp | ⟨p, hp, hyanc⟩
    · have : a.parents.any (fun p => pyMem pyEq z (ancestors p)) = true :=
        List.any_eq_true.mpr ⟨y, hyp, hz⟩
      simp [this]
    · have hps : sizeM p < sizeM a := sizeM_lt_of_mem_parents hp
      have hrec := ih (sizeM p) (lt_of_lt_of_le hps ha) p le_rfl y hyanc z hz
      have : a.parents.any (fun q => pyMem pyEq z (ancestors q)) = true :=
        List.any_eq_true.mpr ⟨p, hp, hrec⟩
      simp [this]

/-- The ancestor closure is transitively closed modulo __eq__: anything
__eq__-member of the ancestors of an __eq__-member of the ancestors of a
is itself an __eq__-member of the ancestors of a. -/
theorem pyMem_anc_trans {a b z : MicroArchitecture}
    (hb : pyMem pyEq b (ancestors a) = true)
    (hz : pyMem pyEq z (ancestors b) = true) :
    pyMem pyEq z (ancestors a) = true := by
  obtain ⟨y, hy, hby⟩ := pyMem_iff.mp hb
  have hanc : listEqWith pyEq (ancestors b) (ancestors y) = true :=
    pyEq_ancestors_component hby
  have hz' : pyMem pyEq z (ancestors y) = true := by
    rw [← pyMem_of_listEqWith hanc]
    exact hz
  exact pyMem_ancestors_closure_aux (sizeM a) a le_rfl y hy z hz'

/-- Raw info record: mapping from field names to string values. -/
abbrev RawInfo := List (String × String)

/-- Python dict.get(key, default). -/
def rawGet (info : RawInfo) (key dflt : String) : String :=
  (info.lookup key).getD dflt

/-- The orderability test of _ensure_strictly_orderable: two targets are
orderable when they are equal or one is in the ancestors of the other;
otherwise the method raises ValueError. -/
def strictlyOrderable (a b : MicroArchitecture) : Bool :=
  pyEq a b ||
    (pyMem pyEq a (ancestors b) || pyMem pyEq b (ancestors a))

/-- MicroArchitecture.__lt__: none models the ValueError raised on
incomparable arguments; otherwise true exactly when self is in the
ancestors of other. -/
def pyLt (a b : MicroArchitecture) : Option Bool :=
  if strictlyOrderable a b then some (pyMem pyEq a (ancestors b)) else none

/-- MicroArchitecture.__le__: (self == other) or (self < other), with
Python short-circuit: an equal pair never reaches __lt__. -/
def pyLe (a b : MicroArchitecture) : Option Bool :=
  if pyEq a b then some true else pyLt a b

/-- MicroArchitecture.__gt__: not (self <= other); an exception from
__le__ propagates. -/
def pyGt (a b : MicroArchitecture) : Option Bool :=
  (pyLe a b).map (fun v => !v)

/-- MicroArchitecture.__ge__: not (self < other); an exception from
__lt__ propagates. -/
def pyGe (a b : MicroArchitecture) : Option Bool :=
  (pyLt a b).map (fun v => !v)

/-- MicroArchitecture.architecture_family: the sole member of
[self] + ancestors with no ancestors of its own; none models the
assertion failure when there is not exactly one root. -/
def architecture_family (a : MicroArchitecture) : Option MicroArchitecture :=
  match ([a] ++ ancestors a).filter (fun r => (ancestors r).isEmpty) with
  | [r] => some r
  | _ => none

/-- MicroArchitecture.__contains__: first the raw features, then the
feature alias of that name if one is defined; a missing alias means
false.  The alias table stands for the feature_aliases dictionary loaded
from targets.json (data outside the embedded sources). -/
def containsFeature
    (feature_aliases : List (String × (MicroArchitecture → Bool)))
    (a : MicroArchitecture) (feature : String) : Bool :=
  if a.features.contains feature then true
  else
    match feature_aliases.lookup feature with
    | some match_alias => match_alias a
    | none => false

/-- generic_microarchitecture: no parents, vendor generic, no features,
no compilers, generation 0. -/
def generic_microarchitecture (name : String) : MicroArchitecture :=
  .mk name [] "generic" [] [] 0

/-- Python str.split() with no argument: split on runs of whitespace,
dropping empty pieces.  First argument is the remaining characters,
second the current (reversed) token. -/
def splitWsAux : List Char → List Char → List String
  | [], acc => if acc.isEmpty then [] else [String.mk acc.reverse]
  | c :: rest, acc =>
    if c.isWhitespace then
      if acc.isEmpty then splitWsAux rest []
      else String.mk acc.reverse :: splitWsAux rest []
    else splitWsAux rest (c :: acc)

/-- Python str.split() with no argument. -/
def pySplit (s : String) : List String := splitWsAux s.toList []

/-- compatibility_check_for_x86_64.  The arch_root parameter stands for
the catalog entry targets["x86_64"]. -/
def compatibility_check_for_x86_64 (arch_root : MicroArchitecture)
    (info : RawInfo) (target : MicroArchitecture) : Bool :=
  let vendor := rawGet info "vendor_id" "generic"
  let host_features := pySplit (rawGet info "flags" "")
  (pyEq target arch_root || pyMem pyEq arch_root (ancestors target)) &&
  (decide (target.vendor = vendor) || decide (target.vendor = "generic")) &&
  target.features.all (fun f => host_features.contains f)

/-- Numeric value of a digit run, as Python int() of the matched group. -/
def digitsVal (cs : List Char) : Nat :=
  cs.foldl (fun n c => 10 * n + (c.toNat - 48)) 0

/-- One anchored attempt of the regular expression POWER(\d+): the
literal POWER followed by at least one digit, the digit group greedy. -/
def powerMatchAt : List Char → Option Nat
  | 'P' :: 'O' :: 'W' :: 'E' :: 'R' :: rest =>
    let ds := rest.takeWhile Char.isDigit
    if ds.isEmpty then none else some (digitsVal ds)
  | _ => none

/-- re.search of POWER(\d+): try every start position left to right. -/
def powerSearch : List Char → Option Nat
  | [] => none
  | c :: rest =>
    match powerMatchAt (c :: rest) with
    | some g => some g
    | none => powerSearch rest

/-- The generation number parsed by compatibility_check_for_power from
the cpu field; none models the AttributeError raised on group(1) of a
failed search. -/
def parsePowerGeneration (s : String) : Option Nat := powerSearch s.toList

/-- compatibility_check_for_power.  The arch_root parameter stands for
targets[platform.machine()]; none models the fatal parse error when the
cpu field has no POWER token. -/
def compatibility_check_for_power (arch_root : MicroArchitecture)
    (info : RawInfo) (target : MicroArchitecture) : Option Bool :=
  match parsePowerGeneration (rawGet info "cpu" "") with
  | none => none
  | some generation =>
    some ((pyEq target arch_root || pyMem pyEq arch_root (ancestors target))
      && decide (target.generation ≤ generation))

/-- The four fields the info_dict wrapper asserts to be present. -/
def requiredInfoFields : List String :=
  ["vendor_id", "flags", "model", "model_name"]

/-- Does a raw info record carry all required fields. -/
def hasRequiredFields (info : RawInfo) : Bool :=
  requiredInfoFields.all (fun k => (info.lookup k).isSome)

/-- The _impl wrapper built by the info_dict decorator: run the factory
(none models an exception escaping it) and assert the four mandatory
fields, an assertion failure being an exception as well. -/
def info_dict_impl (factory : Option RawInfo) : Option RawInfo :=
  match factory with
  | none => none
  | some info => if hasRequiredFields info then some info else none

/-- raw_info_dictionary: try each registered factory in order, discard
exceptions (none entries), stop at the first truthy (non-empty) result,
and return the empty record when none succeeds.  The registered list is
the one built by the info_dict decorator, which appends the undecorated
factory itself. -/
def raw_info_dictionary : List (Option RawInfo) → RawInfo
  | [] => []
  | f :: rest =>
    match f with
    | some info => if info.isEmpty then raw_info_dictionary rest else info
    | none => raw_info_dictionary rest

/-- compatible_microarchitectures: filter the catalog through the
registered compatibility check for the machine type (a missing check
means a constantly false one) and fall back to the synthetic generic
entry when the filtered list is empty.  The machine parameter stands for
platform.machine(), catalog for targets.values() in iteration order, and
tester for compatibility_checks.get(machine). -/
def compatible_microarchitectures
    (tester : Option (RawInfo → MicroArchitecture → Bool))
    (catalog : List MicroArchitecture) (machine : String)
    (info : RawInfo) : List MicroArchitecture :=
  let t := tester.getD (fun _ _ => false)
  let compat := catalog.filter (fun x => t info x)
  if compat.isEmpty then [generic_microarchitecture machine] else compat

/-- Stable insertion into a list sorted by descending key, as Python
sorted(key=..., reverse=True) orders elements. -/
def insertDesc (key : MicroArchitecture → Nat) (x : MicroArchitecture) :
    List MicroArchitecture → List MicroArchitecture
  | [] => [x]
  | y :: ys => if key y ≤ key x then x :: y :: ys else y :: insertDesc key x ys

/-- Stable sort by descending key, as Python
sorted(candidates, key=..., reverse=True). -/
def pySortedDesc (key : MicroArchitecture → Nat) :
    List MicroArchitecture → List MicroArchitecture
  | [] => []
  | x :: xs => insertDesc key x (pySortedDesc key xs)

/-- detect_host: raw info, candidate filtering, then the candidate with
the deepest inheritance tree (largest ancestor closure); none models the
IndexError of indexing an empty list, which cannot occur. -/
def detect_host (factories : List (Option RawInfo))
    (tester : Option (RawInfo → MicroArchitecture → Bool))
    (catalog : List MicroArchitecture) (machine : String) :
    Option MicroArchitecture :=
  let info := raw_info_dictionary factories
  let candidates := compatible_microarchitectures tester catalog machine info
  (pySortedDesc (fun t => (ancestors t).length) candidates).head?

/-- No element of the list equals (by __eq__) a later element: the list
has no duplicate entries. -/
def pyNodupB : List MicroArchitecture → Bool
  | [] => true
  | x :: xs => !(pyMem pyEq x xs) && pyNodupB xs

theorem mem_insertDesc {key : MicroArchitecture → Nat}
    {x z : MicroArchitecture} {l : List MicroArchitecture} :
    z ∈ insertDesc key x l ↔ z = x ∨ z ∈ l := by
  induction l with
  | nil => simp [insertDesc]
  | cons y ys ih =>
    simp only [insertDesc]
    by_cases h : key y ≤ key x
    · simp [h, List.mem_cons]
    · simp [h, List.mem_cons, ih]
      tauto

theorem mem_pySortedDesc {key : MicroArchitecture → Nat}
    {z : MicroArchitecture} {l : List MicroArchitecture} :
    z ∈ pySortedDesc key l ↔ z ∈ l := by
  induction l with
  | nil => simp [pySortedDesc]
  | cons x xs ih =>
    simp only [pySortedDesc]
    rw [mem_insertDesc]
    simp [List.mem_cons, ih]

theorem pairwise_insertDesc {key : MicroArchitecture → Nat}
    {x : MicroArchitecture} {l : List MicroArchitecture}
    (h : List.Pairwise (fun a b => key b ≤ key a) l) :
    List.Pairwise (fun a b => key b ≤ key a) (insertDesc key x l) := by
  induction l with
  | nil => simp [insertDesc]
  | cons y ys ih =>
    rw [List.pairwise_cons] at h
    simp only [insertDesc]
    by_cases hc : key y ≤ key x
    · rw [if_pos hc]
      rw [List.pairwise_cons]
      constructor
      · intro z hz
        rcases List.mem_cons.mp hz with rfl | hz'
        · exact hc
        · exact le_trans (h.1 z hz') hc
      · rw [List.pairwise_cons]
        exact h
    · rw [if_neg hc]
      rw [List.pairwise_cons]
      constructor
      · intro z hz
        rcases mem_insertDesc.mp hz with rfl | hz'
        · exact le_of_lt (lt_of_not_le hc)
        · exact h.1 z hz'
      · exact ih h.2

theorem pairwise_pySortedDesc (key : MicroArchitecture → Nat)
    (l : List MicroArchitecture) :
    List.Pairwise (fun a b => key b ≤ key a) (pySortedDesc key l) := by
  induction l with
  | nil => simp [pySortedDesc]
  | cons x xs ih => exact pairwise_insertDesc ih

theorem pySortedDesc_head_max (key : MicroArchitecture → Nat)
    {l : List MicroArchitecture} (h : l ≠ []) :
    ∃ m t, pySortedDesc key l = m :: t ∧ m ∈ l ∧
      ∀ x ∈ l, key x ≤ key m := by
  obtain ⟨z, hz⟩ := List.exists_mem_of_ne_nil l h
  have hzs : z ∈ pySortedDesc key l := mem_pySortedDesc.mpr hz
  obtain ⟨m, t, hmt⟩ : ∃ m t, pySortedDesc key l = m :: t := by
    cases hs : pySortedDesc key l with
    | nil => rw [hs] at hzs; cases hzs
    | cons m t => exact ⟨m, t, rfl⟩
  refine ⟨m, t, hmt, ?_, ?_⟩
  · have : m ∈ pySortedDesc key l := by rw [hmt]; exact List.mem_cons_self _ _
    exact mem_pySortedDesc.mp this
  · intro x hx
    have hxs : x ∈ pySortedDesc key l := mem_pySortedDesc.mpr hx
    rw [hmt] at hxs
    rcases List.mem_cons.mp hxs with rfl | hxt
    · exact le_refl _
    · have hp := pairwise_pySortedDesc key l
      rw [hmt, List.pairwise_cons] at hp
      exact hp.1 x hxt

/-- Fixture: the x86_64 root of the catalog (no parents, vendor generic,
no features). -/
def sampleRoot : MicroArchitecture :=
  .mk "x86_64" [] "generic" [] [] 0

/-- Fixture: a haswell-like child of the x86_64 root. -/
def sampleHaswell : MicroArchitecture :=
  .mk "haswell" [sampleRoot] "GenuineIntel" ["avx"] [] 0

/-- Fixture: raw host info matching sampleHaswell. -/
def sampleInfo : RawInfo :=
  [("vendor_id", "GenuineIntel"), ("flags", "avx sse")]

/-- C4: compatible_microarchitectures never returns an empty list, and
when no compatibility check is registered for the machine type, or no
catalog entry satisfies the registered check, it returns exactly the
synthetic generic entry for the machine type, which has no features and
vendor generic. -/
theorem C4_compatible_fallback
    (tester : Option (RawInfo → MicroArchitecture → Bool))
    (catalog : List MicroArchitecture) (machine : String) (info : RawInfo) :
    compatible_microarchitectures tester catalog machine info ≠ [] ∧
    ((tester = none ∨
        catalog.filter
          (fun x => (tester.getD (fun _ _ => false)) info x) = []) →
      compatible_microarchitectures tester catalog machine info =
        [generic_microarchitecture machine] ∧
      (generic_microarchitecture machine).features = [] ∧
      (generic_microarchitecture machine).vendor = "generic") := by
  constructor
  · by_cases h : catalog.filter
        (fun x => (tester.getD (fun _ _ => false)) info x) = []
    · simp [compatible_microarchitectures, h]
    · simp [compatible_microarchitectures, List.isEmpty_iff, h]
  · intro h
    have hfil : catalog.filter
        (fun x => (tester.getD (fun _ _ => false)) info x) = [] := by
      rcases h with rfl | h
      · simp
      · exact h
    refine ⟨?_, rfl, rfl⟩
    simp [compatible_microarchitectures, hfil]

/-- C4 witness at a concrete input: with no registered check the result
is exactly the synthetic generic entry and is non-empty. -/
theorem C4_witness :
    compatible_microarchitectures none [sampleRoot] "riscv64" [] =
      [generic_microarchitecture "riscv64"] ∧
    compatible_microarchitectures none [sampleRoot] "riscv64" [] ≠ [] :=
  ⟨((C4_compatible_fallback none [sampleRoot] "riscv64" []).2
      (Or.inl rfl)).1,
    (C4_compatible_fallback none [sampleRoot] "riscv64" []).1⟩

/-- C7: on two targets that are not equal and neither of which is in the
ancestors of the other, the strict ordering operators raise ValueError
(modelled by none) in both orientations rather than returning false. -/
theorem C7_incomparable_raises (a b : MicroArchitecture)
    (hne : pyEq a b = false)
    (hab : pyMem pyEq a (ancestors b) = false)
    (hba : pyMem pyEq b (ancestors a) = false) :
    pyLt a b = none ∧ pyGt a b = none ∧ pyLt b a = none ∧ pyGt b a = none := by
  have hne' : pyEq b a = false := by rw [pyEq_symm]; exact hne
  have hso : strictlyOrderable a b = false := by
    simp [strictlyOrderable, hne, hab, hba]
  have hso' : strictlyOrderable b a = false := by
    simp [strictlyOrderable, hne', hab, hba]
  have hlt : pyLt a b = none := by simp [pyLt, hso]
  have hlt' : pyLt b a = none := by simp [pyLt, hso']
  refine ⟨hlt, ?_, hlt', ?_⟩
  · simp [pyGt, pyLe, hne, hlt]
  · simp [pyGt, pyLe, hne', hlt']

/-- C7 witness: two unrelated generic targets are incomparable and the
strict comparison raises. -/
theorem C7_witness :
    pyEq (generic_microarchitecture "arm") (generic_microarchitecture "mips")
      = false ∧
    pyLt (generic_microarchitecture "arm") (generic_microarchitecture "mips")
      = none :=
  ⟨by decide,
    (C7_incomparable_raises _ _ (by decide) (by decide) (by decide)).1⟩

/-- C9: __contains__ finds raw features first, falls back to a feature
alias of the same name, and a missing alias gives false (no error, the
function is total). -/
theorem C9_contains_feature
    (feature_aliases : List (String × (MicroArchitecture → Bool)))
    (a : MicroArchitecture) (feature : String) :
    (feature ∈ a.features →
      containsFeature feature_aliases a feature = true) ∧
    (feature ∉ a.features →
      (containsFeature feature_aliases a feature = true ↔
        ∃ t, feature_aliases.lookup feature = some t ∧ t a = true)) ∧
    (feature ∉ a.features → feature_aliases.lookup feature = none →
      containsFeature feature_aliases a feature = false) := by
  refine ⟨?_, ?_, ?_⟩
  · intro h
    simp [containsFeature, strContains_iff.mpr h]
    exact Or.inl h
  · intro h
    have hc : a.features.contains feature = false := by
      cases hcc : a.features.contains feature
      · rfl
      · exact absurd (strContains_iff.mp hcc) h
    simp only [containsFeature, hc, Bool.false_eq_true, if_false]
    cases hl : feature_aliases.lookup feature with
    | none => simp
    | some t => simp
  · intro h hl
    have hc : a.features.contains feature = false := by
      cases hcc : a.features.contains feature
      · rfl
      · exact absurd (strContains_iff.mp hcc) h
    simp [containsFeature, hc, hl]
    exact h

/-- C9 witness: a feature that is neither raw nor aliased gives false. -/
theorem C9_witness :
    ("sse" ∉ sampleHaswell.features) ∧
    containsFeature [] sampleHaswell "sse" = false :=
  ⟨by decide, (C9_contains_feature [] sampleHaswell "sse").2.2 (by decide) rfl⟩

/-- C10: a synthetic generic entry has an empty ancestor closure, is its
own architecture family, and generic entries of the same name are equal
under __eq__. -/
theorem C10_generic (name : String) :
    ancestors (generic_microarchitecture name) = [] ∧
    architecture_family (generic_microarchitecture name) =
      some (generic_microarchitecture name) ∧
    pyEq (generic_microarchitecture name) (generic_microarchitecture name)
      = true := by
  have hanc : ancestors (generic_microarchitecture name) = [] := by
    rw [ancestors_eq]
    rfl
  refine ⟨hanc, ?_, pyEq_refl _⟩
  unfold architecture_family
  rw [hanc]
  simp [List.filter, hanc]

/-- C1 counterexample: on a haswell-like child of the x86_64 root with
matching vendor and flags, the registered check returns true although the
candidate neither equals the root nor is an ancestor of the root, so the
claimed biconditional fails at this input. -/
theorem C1_counterexample :
    ¬(compatibility_check_for_x86_64 sampleRoot sampleInfo sampleHaswell
        = true ↔
      ((pyEq sampleHaswell sampleRoot = true ∨
        pyMem pyEq sampleHaswell (ancestors sampleRoot) = true) ∧
       (sampleHaswell.vendor = rawGet sampleInfo "vendor_id" "generic" ∨
        sampleHaswell.vendor = "generic") ∧
       (∀ f ∈ sampleHaswell.features,
          f ∈ pySplit (rawGet sampleInfo "flags" "")))) := by
  decide

/-- C1 amended: the x86_64 check returns true iff the candidate equals
the catalog's x86_64 root or that root is an ancestor of the candidate
(the candidate is in the x86_64 family), the candidate's vendor equals
the host's vendor_id (defaulting to generic) or is itself generic, and
the candidate's features are a subset of the whitespace-split host
flags. -/
theorem C1_x86_64_check_amended (arch_root : MicroArchitecture)
    (info : RawInfo) (target : MicroArchitecture) :
    compatibility_check_for_x86_64 arch_root info target = true ↔
      ((pyEq target arch_root = true ∨
        pyMem pyEq arch_root (ancestors target) = true) ∧
       (target.vendor = rawGet info "vendor_id" "generic" ∨
        target.vendor = "generic") ∧
       (∀ f ∈ target.features, f ∈ pySplit (rawGet info "flags" ""))) := by
  simp only [compatibility_check_for_x86_64, Bool.and_eq_true,
    Bool.or_eq_true, decide_eq_true_eq, List.all_eq_true, strContains_iff]
  tauto

/-- Fixture: a raw info record missing the model and model_name fields. -/
def incompleteInfo : RawInfo :=
  [("vendor_id", "GenuineIntel"), ("flags", "avx sse")]

/-- Fixture: a raw info record with all four required fields. -/
def completeInfo : RawInfo :=
  [("vendor_id", "GenuineIntel"), ("flags", "avx sse"),
   ("model", "79"), ("model_name", "testcpu")]

/-- C2: the decorator registers the undecorated factory, so the raw info
step returns the first non-empty result even when required fields are
missing.  At this input the first collector lacks model and model_name,
the validating wrapper info_dict_impl would reject it, yet
raw_info_dictionary returns it instead of moving to the next complete
collector as the claim requires. -/
theorem C2_collector_divergence :
    hasRequiredFields incompleteInfo = false ∧
    info_dict_impl (some incompleteInfo) = none ∧
    raw_info_dictionary [some incompleteInfo, some completeInfo] =
      incompleteInfo := by
  decide

/-- C5: with a POWER generation token present in the cpu field, the
ppc64/ppc64le check is true iff the candidate equals the machine-type
root or that root is an ancestor of the candidate, and the candidate's
generation is at most the parsed host generation; with no POWER token
the check raises (none). -/
theorem C5_power_check (arch_root : MicroArchitecture) (info : RawInfo)
    (target : MicroArchitecture) :
    (∀ g : Nat, parsePowerGeneration (rawGet info "cpu" "") = some g →
      (compatibility_check_for_power arch_root info target = some true ↔
        ((pyEq target arch_root = true ∨
          pyMem pyEq arch_root (ancestors target) = true) ∧
         target.generation ≤ g))) ∧
    (parsePowerGeneration (rawGet info "cpu" "") = none →
      compatibility_check_for_power arch_root info target = none) := by
  constructor
  · intro g hg
    simp only [compatibility_check_for_power, hg, Option.some_inj,
      Bool.and_eq_true, Bool.or_eq_true, decide_eq_true_eq]
  · intro h
    simp [compatibility_check_for_power, h]

/-- Fixture: the ppc64le root of the catalog. -/
def samplePowerRoot : MicroArchitecture :=
  .mk "ppc64le" [] "generic" [] [] 0

/-- Fixture: a power8-like child of the ppc64le root. -/
def samplePower8 : MicroArchitecture :=
  .mk "power8" [samplePowerRoot] "IBM" [] [] 8

/-- Fixture: raw host info for a POWER9 machine. -/
def samplePowerInfo : RawInfo := [("cpu", "POWER9 (architected)")]

/-- C5 witness: on a POWER9 host, a generation 8 child of the ppc64le
root satisfies the biconditional. -/
theorem C5_witness :
    parsePowerGeneration (rawGet samplePowerInfo "cpu" "") = some 9 ∧
    (compatibility_check_for_power samplePowerRoot samplePowerInfo
        samplePower8 = some true ↔
      ((pyEq samplePower8 samplePowerRoot = true ∨
        pyMem pyEq samplePowerRoot (ancestors samplePower8) = true) ∧
       samplePower8.generation ≤ 9)) :=
  ⟨by decide,
    (C5_power_check samplePowerRoot samplePowerInfo samplePower8).1 9
      (by decide)⟩

/-- C3: whenever some catalog entry passes the registered compatibility
check on the collected raw info, detect_host returns a passing entry
whose ancestor closure is at least as large as that of every other
passing entry. -/
theorem C3_detect_host_deepest (factories : List (Option RawInfo))
    (tester : Option (RawInfo → MicroArchitecture → Bool))
    (catalog : List MicroArchitecture) (machine : String)
    (h : catalog.filter
        (fun x => (tester.getD (fun _ _ => false))
          (raw_info_dictionary factories) x) ≠ []) :
    ∃ m, detect_host factories tester catalog machine = some m ∧
      m ∈ catalog.filter
        (fun x => (tester.getD (fun _ _ => false))
          (raw_info_dictionary factories) x) ∧
      ∀ x ∈ catalog.filter
          (fun x => (tester.getD (fun _ _ => false))
            (raw_info_dictionary factories) x),
        (ancestors x).length ≤ (ancestors m).length := by
  have hcand : compatible_microarchitectures tester catalog machine
      (raw_info_dictionary factories) =
      catalog.filter
        (fun x => (tester.getD (fun _ _ => false))
          (raw_info_dictionary factories) x) := by
    simp [compatible_microarchitectures, List.isEmpty_iff, h]
  obtain ⟨m, t, hsort, hmem, hmax⟩ :=
    pySortedDesc_head_max (fun t => (ancestors t).length) h
  refine ⟨m, ?_, hmem, hmax⟩
  show (pySortedDesc (fun t => (ancestors t).length)
      (compatible_microarchitectures tester catalog machine
        (raw_info_dictionary factories))).head? = some m
  rw [hcand, hsort]
  rfl

/-- C3 witness: with the x86_64 check, both the root and the haswell
child pass, and detect_host picks the deepest passing entry. -/
theorem C3_witness :
    ([sampleRoot, sampleHaswell].filter
      (fun x => ((some (compatibility_check_for_x86_64 sampleRoot)).getD
        (fun _ _ => false)) (raw_info_dictionary [some sampleInfo]) x) ≠ []) ∧
    (∃ m, detect_host [some sampleInfo]
        (some (compatibility_check_for_x86_64 sampleRoot))
        [sampleRoot, sampleHaswell] "x86_64" = some m ∧
      m ∈ [sampleRoot, sampleHaswell].filter
        (fun x => ((some (compatibility_check_for_x86_64 sampleRoot)).getD
          (fun _ _ => false)) (raw_info_dictionary [some sampleInfo]) x) ∧
      ∀ x ∈ [sampleRoot, sampleHaswell].filter
          (fun x => ((some (compatibility_check_for_x86_64 sampleRoot)).getD
            (fun _ _ => false)) (raw_info_dictionary [some sampleInfo]) x),
        (ancestors x).length ≤ (ancestors m).length) := by
  have hfil : [sampleRoot, sampleHaswell].filter
      (fun x => ((some (compatibility_check_for_x86_64 sampleRoot)).getD
        (fun _ _ => false)) (raw_info_dictionary [some sampleInfo]) x) =
      [sampleRoot, sampleHaswell] := by rfl
  constructor
  · rw [hfil]
    exact List.cons_ne_nil _ _
  · exact C3_detect_host_deepest [some sampleInfo]
      (some (compatibility_check_for_x86_64 sampleRoot))
      [sampleRoot, sampleHaswell] "x86_64"
      (by rw [hfil]; exact List.cons_ne_nil _ _)

theorem pyNodupB_append_singleton {v : List MicroArchitecture}
    {x : MicroArchitecture} (hv : pyNodupB v = true)
    (hx : pyMem pyEq x v = false) : pyNodupB (v ++ [x]) = true := by
  induction v with
  | nil => simp [pyNodupB, pyMem]
  | cons y ys ih =>
    simp only [pyNodupB, Bool.and_eq_true] at hv
    have hx' : pyEq x y = false ∧ pyMem pyEq x ys = false := by
      simp only [pyMem, List.any_cons, Bool.or_eq_false_iff] at hx
      exact ⟨hx.1, hx.2⟩
    have hyx : pyEq y x = false := by rw [pyEq_symm]; exact hx'.1
    simp only [List.cons_append, pyNodupB, Bool.and_eq_true]
    constructor
    · have hym : pyMem pyEq y (ys ++ [x]) = false := by
        simp only [pyMem, List.any_append, List.any_cons, List.any_nil]
        have h1 : ys.any (fun z => pyEq y z) = false := by
          have := hv.1
          simp only [Bool.not_eq_true'] at this
          simpa [pyMem] using this
        rw [h1, hyx]
        rfl
      simp only [List.append_eq]
      rw [hym]
      rfl
    · exact ih hv.2 hx'.2

theorem pyNodupB_extendDedup {v xs : List MicroArchitecture}
    (h : pyNodupB v = true) : pyNodupB (extendDedup pyEq v xs) = true := by
  induction xs generalizing v with
  | nil => simpa [extendDedup_nil] using h
  | cons x xs ih =>
    rw [extendDedup_cons]
    by_cases hm : pyMem pyEq x v = true
    · rw [if_pos hm]
      exact ih h
    · rw [if_neg hm]
      have hm' : pyMem pyEq x v = false := by
        cases hmm : pyMem pyEq x v
        · rfl
        · exact absurd hmm hm
      exact ih (pyNodupB_append_singleton h hm')

theorem pyNodupB_foldl_anc {ps v : List MicroArchitecture}
    (h : pyNodupB v = true) :
    pyNodupB (ps.foldl (fun v p => extendDedup pyEq v (ancestors p)) v)
      = true := by
  induction ps generalizing v with
  | nil => simpa using h
  | cons p ps ih =>
    simp only [List.foldl_cons]
    exact ih (pyNodupB_extendDedup h)

/-- The property claimed of the ancestors computation: no duplicate
entries, set-equality with the union of the parents and the parents'
ancestor closures, and the deterministic traversal order (parents first,
then each parent's ancestors not already present, in order). -/
def claimC8 (a : MicroArchitecture) : Prop :=
  pyNodupB (ancestors a) = true ∧
  (∀ z, pyMem pyEq z (ancestors a) =
    (pyMem pyEq z a.parents ||
      a.parents.any (fun p => pyMem pyEq z (ancestors p)))) ∧
  ancestors a =
    a.parents.foldl (fun v p => extendDedup pyEq v (ancestors p)) a.parents

/-- Fixture: a micro-architecture listing the same parent twice, as a
dataset entry with a repeated name in its from list would produce. -/
def dupParentSample : MicroArchitecture :=
  .mk "dupchild"
    [generic_microarchitecture "x86_64", generic_microarchitecture "x86_64"]
    "generic" [] [] 0

/-- C8 counterexample: with a duplicated direct parent the initial
value = parents[:] copy is not dedup'd, so the ancestor closure contains
the same entry twice and the claimed property fails. -/
theorem C8_counterexample : ¬claimC8 dupParentSample := by
  intro h
  exact absurd h.1 (by decide)

/-- C8 amended: for every micro-architecture whose direct-parents list is
itself free of duplicates, the ancestor closure has no duplicate entries,
equals as a set the union of the parents with each parent's ancestor
closure, and is produced in the deterministic order parents first, then
each parent's ancestors not already present. -/
theorem C8_ancestors_amended (a : MicroArchitecture)
    (h : pyNodupB a.parents = true) : claimC8 a := by
  refine ⟨?_, fun z => pyMem_ancestors_iff z a, ancestors_eq a⟩
  rw [ancestors_eq]
  exact pyNodupB_foldl_anc h

/-- C8 witness: a single-parent child has a duplicate-free parents list
and a duplicate-free ancestor closure. -/
theorem C8_witness :
    pyNodupB sampleHaswell.parents = true ∧
    pyNodupB (ancestors sampleHaswell) = true :=
  ⟨by decide, (C8_ancestors_amended sampleHaswell (by decide)).1⟩

/-- Exactly one of three statements holds. -/
def exactlyOne (p q r : Prop) : Prop :=
  (p ∧ ¬q ∧ ¬r) ∨ (¬p ∧ q ∧ ¬r) ∨ (¬p ∧ ¬q ∧ r)

/-- C6: on comparable targets (equal, or one an __eq__-member of the
ancestors of the other) whose ancestor graphs are acyclic, exactly one of
less-than, equal, greater-than holds. -/
theorem C6_trichotomy (a b : MicroArchitecture)
    (hcomp : pyEq a b = true ∨ pyMem pyEq a (ancestors b) = true ∨
      pyMem pyEq b (ancestors a) = true)
    (hacyc : ∀ z ∈ [a, b] ++ ancestors a ++ ancestors b,
      pyMem pyEq z (ancestors z) = false) :
    exactlyOne (pyLt a b = some true) (pyEq a b = true)
      (pyLt b a = some true) := by
  have haa : pyMem pyEq a (ancestors a) = false := hacyc a (by simp)
  have hbb : pyMem pyEq b (ancestors b) = false := hacyc b (by simp)
  have hso : strictlyOrderable a b = true := by
    unfold strictlyOrderable
    rcases hcomp with h | h | h <;> simp [h]
  have hso2 : strictlyOrderable b a = true := by
    unfold strictlyOrderable
    rcases hcomp with h | h | h
    · rw [pyEq_symm] at h
      simp [h]
    · simp [h]
    · simp [h]
  have hltab : pyLt a b = some (pyMem pyEq a (ancestors b)) := by
    simp [pyLt, hso]
  have hltba : pyLt b a = some (pyMem pyEq b (ancestors a)) := by
    simp [pyLt, hso2]
  have hX : pyEq a b = true → pyMem pyEq a (ancestors b) = false := by
    intro he
    cases hm : pyMem pyEq a (ancestors b) with
    | false => rfl
    | true =>
      exfalso
      obtain ⟨y, hy, hay⟩ := pyMem_iff.mp hm
      have hba : pyEq b a = true := by rw [pyEq_symm]; exact he
      have hb' : pyMem pyEq b (ancestors b) = true :=
        pyMem_iff.mpr ⟨y, hy, pyEq_trans hba hay⟩
      rw [hbb] at hb'
      exact Bool.false_ne_true hb'
  have hY : pyEq a b = true → pyMem pyEq b (ancestors a) = false := by
    intro he
    cases hm : pyMem pyEq b (ancestors a) with
    | false => rfl
    | true =>
      exfalso
      obtain ⟨y, hy, hby⟩ := pyMem_iff.mp hm
      have ha' : pyMem pyEq a (ancestors a) = true :=
        pyMem_iff.mpr ⟨y, hy, pyEq_trans he hby⟩
      rw [haa] at ha'
      exact Bool.false_ne_true ha'
  have hZ : pyMem pyEq a (ancestors b) = true →
      pyMem pyEq b (ancestors a) = true → False := by
    intro h1 h2
    have hcyc : pyMem pyEq a (ancestors a) = true := pyMem_anc_trans h2 h1
    rw [haa] at hcyc
    exact Bool.false_ne_true hcyc
  by_cases he : pyEq a b = true
  · refine Or.inr (Or.inl ⟨?_, he, ?_⟩)
    · rw [hltab, hX he]
      simp
    · rw [hltba, hY he]
      simp
  · have he' : pyEq a b = false := by
      cases hee : pyEq a b
      · rfl
      · exact absurd hee he
    rcases hcomp with h | h | h
    · exact absurd h he
    · have hba : pyMem pyEq b (ancestors a) = false := by
        cases hm : pyMem pyEq b (ancestors a)
        · rfl
        · exact (hZ h hm).elim
      refine Or.inl ⟨?_, he, ?_⟩
      · rw [hltab, h]
      · rw [hltba, hba]
        simp
    · have hab2 : pyMem pyEq a (ancestors b) = false := by
        cases hm : pyMem pyEq a (ancestors b)
        · rfl
        · exact (hZ hm h).elim
      refine Or.inr (Or.inr ⟨?_, he, ?_⟩)
      · rw [hltab, hab2]
        simp
      · rw [hltba, h]

/-- C6 witness: the x86_64 root and its haswell child are comparable
with acyclic ancestor graphs, and exactly the root-below-child relation
holds. -/
theorem C6_witness :
    (pyMem pyEq sampleRoot (ancestors sampleHaswell) = true) ∧
    (∀ z ∈ [sampleHaswell, sampleRoot] ++ ancestors sampleHaswell ++
        ancestors sampleRoot, pyMem pyEq z (ancestors z) = false) ∧
    exactlyOne (pyLt sampleHaswell sampleRoot = some true)
      (pyEq sampleHaswell sampleRoot = true)
      (pyLt sampleRoot sampleHaswell = some true) :=
  ⟨by decide, by decide,
    C6_trichotomy sampleHaswell sampleRoot
      (Or.inr (Or.inr (by decide))) (by decide)⟩
